import Mathlib

/-!
Shallow embedding of the CSV/XLSX analyzer core (src/app.js and its
variant source file): separator detection, quote-aware line splitting,
CSV parsing into datasets, keyword extraction, and the row-filtering
engine, together with theorems settling the specification claims.

JS strings are modelled as Lean `String` values; the JS string
primitives used by the code (split, trim, toLowerCase, includes) are
embedded as executable functions over the character list of the string.
JS row objects are modelled as association lists in key-insertion
order, with last-write-wins lookup matching JS property semantics.
-/

/-- JS whitespace test for the characters relevant here (space, tab, CR, LF). -/
def jsIsWhitespace (c : Char) : Bool :=
  c = ' ' || c = '\t' || c = '\r' || c = '\n'

/-- Character-list core of JS `String.prototype.trim`. -/
def trimChars (cs : List Char) : List Char :=
  ((cs.dropWhile jsIsWhitespace).reverse.dropWhile jsIsWhitespace).reverse

/-- JS `s.trim()`. -/
def jsTrim (s : String) : String :=
  String.mk (trimChars s.toList)

/-- JS `s.toLowerCase()` (ASCII range, via `Char.toLower`). -/
def jsToLower (s : String) : String :=
  String.mk (s.toList.map Char.toLower)

/-- Does `pat` occur at the start of `cs`? (helper for JS `includes`). -/
def startsWithChars : List Char → List Char → Bool
  | [], _ => true
  | _ :: _, [] => false
  | p :: ps, c :: cs => p = c && startsWithChars ps cs

/-- Does `pat` occur somewhere inside `cs`? (helper for JS `includes`). -/
def containsChars (cs pat : List Char) : Bool :=
  if startsWithChars pat cs then true
  else
    match cs with
    | [] => false
    | _ :: rest => containsChars rest pat

/-- JS `value.includes(keyword)`: substring containment. -/
def jsIncludes (value keyword : String) : Bool :=
  containsChars value.toList keyword.toList

/-- Character-list core of JS `line.split(sep)` for a single-character
separator (naive split, not quote aware). -/
def jsSplitChars (sep : Char) : List Char → List (List Char)
  | [] => [[]]
  | c :: rest =>
    if c = sep then [] :: jsSplitChars sep rest
    else
      match jsSplitChars sep rest with
      | [] => [[c]]
      | f :: r => (c :: f) :: r

/-- JS `line.split(sep)` for a single-character separator. -/
def jsSplit (sep : Char) (s : String) : List String :=
  (jsSplitChars sep s.toList).map String.mk

/-- Character-list core of JS `text.split(/\r?\n/)`: every LF is a line
boundary and a CR immediately preceding an LF is consumed with it. -/
def splitLinesChars : List Char → List (List Char)
  | [] => [[]]
  | '\r' :: '\n' :: rest => [] :: splitLinesChars rest
  | '\n' :: rest => [] :: splitLinesChars rest
  | c :: rest =>
    match splitLinesChars rest with
    | [] => [[c]]
    | f :: r => (c :: f) :: r

/-- JS `text.split(/\r?\n/)`. -/
def splitLinesJS (text : String) : List String :=
  (splitLinesChars text.toList).map String.mk

/-- The candidate separators of `detectCSVSeparator`, in evaluation order. -/
def csvSeparators : List Char := [';', ',', '\t', '|']

/-- Sum over `lines` of the number of naive split-by-`sep` segments
(the per-candidate score of `detectCSVSeparator`). -/
def scoreFor (lines : List String) (sep : Char) : Nat :=
  lines.foldl (fun score line => score + (jsSplit sep line).length) 0

/-- The first five lines `detectCSVSeparator` scores: nonempty lines of
the text (JS `filter(Boolean)`), first five (`slice(0, 5)`). -/
def detectLines (text : String) : List String :=
  ((splitLinesJS text).filter (fun l => l ≠ "")).take 5

/-- Core loop of `detectCSVSeparator`: fold over the candidates starting
from best separator `,` and best score `-Infinity` (modelled as `none`,
which every `Nat` score beats); a candidate replaces the current best
only on a strictly greater score. -/
def detectOnLines (lines : List String) : Char :=
  (csvSeparators.foldl
    (fun best sep =>
      let score := scoreFor lines sep
      match best.2 with
      | none => (sep, some score)
      | some b => if score > b then (sep, some score) else best)
    ((',', none) : Char × Option Nat)).1

/-- `detectCSVSeparator(text)` from src/app.js. -/
def detectCSVSeparator (text : String) : Char :=
  detectOnLines (detectLines text)

/-- Character-list scan of `splitCSVLine(line, separator)`: quote-aware,
with doubled-quote escape inside quotes, separator as boundary only
outside quotes, each flushed field trimmed. -/
def splitCSVLineAux (separator : Char) :
    List Char → Bool → List Char → List (List Char) → List (List Char)
  | [], _, current, result => result ++ [trimChars current]
  | '\"' :: '\"' :: rest2, true, current, result =>
    splitCSVLineAux separator rest2 true (current ++ ['\"']) result
  | '\"' :: rest, true, current, result =>
    splitCSVLineAux separator rest false current result
  | '\"' :: rest, false, current, result =>
    splitCSVLineAux separator rest true current result
  | c :: rest, inQuotes, current, result =>
    if c = separator ∧ inQuotes = false then
      splitCSVLineAux separator rest inQuotes [] (result ++ [trimChars current])
    else
      splitCSVLineAux separator rest inQuotes (current ++ [c]) result

/-- `splitCSVLine(line, separator)` from src/app.js. -/
def splitCSVLine (line : String) (separator : Char) : List String :=
  (splitCSVLineAux separator line.toList false [] []).map String.mk

/-- A parsed row: the key/value pairs written into the JS row object, in
header order (last write wins on duplicate keys, as in JS). -/
def Row : Type := List (String × String)

instance : DecidableEq Row := inferInstanceAs (DecidableEq (List (String × String)))

/-- JS property read `row[header]`: the value of the last write for that
key, or `none` when the key is absent (JS `undefined`). -/
def rowGet (row : Row) (header : String) : Option String :=
  (row.reverse.find? (fun p => p.1 = header)).map Prod.snd

/-- The `{ headers, rows }` shape produced by `parseCSV` and the XLSX path. -/
structure Dataset where
  headers : List String
  rows : List Row
deriving DecidableEq

/-- Header resolution of `parseCSV`: a falsy (empty) token at index `i`
becomes `Colonne i+1`, any other token is trimmed. -/
def resolveHeaders (tokens : List String) : List String :=
  tokens.mapIdx (fun index h => if h = "" then "Colonne " ++ toString (index + 1) else jsTrim h)

/-- Row construction of `parseCSV`: for each header in order, the field
at the same position, or the empty string when the field is missing
(`parts[index] != null ? parts[index] : ''`); fields beyond the header
count are never read. -/
def buildRow (headers parts : List String) : Row :=
  headers.mapIdx (fun index h => (h, parts.getD index ""))

/-- `parseCSV(text)` from src/app.js: detect the separator on the raw
text, split into lines, trim each line and drop blank lines, resolve
headers from the first line, build one row per remaining line. -/
def parseCSV (text : String) : Dataset :=
  let separator := detectCSVSeparator text
  let lines := ((splitLinesJS text).map jsTrim).filter (fun l => l ≠ "")
  match lines with
  | [] => ⟨[], []⟩
  | first :: rest =>
    ⟨resolveHeaders (splitCSVLine first separator),
     rest.map (fun line =>
       buildRow (resolveHeaders (splitCSVLine first separator)) (splitCSVLine line separator))⟩

/-- `parseKeywords(raw)` from src/app.js: split on commas, trim each
piece, drop empty pieces. -/
def parseKeywords (raw : String) : List String :=
  ((jsSplit ',' raw).map jsTrim).filter (fun keyword => keyword ≠ "")

/-- `extractKeywordsFromReference(refData)` from src/app.js: walk cell
values in row order then key order, trim, and keep the first occurrence
of each nonempty value (the JS `Set` preserves insertion order). -/
def extractKeywordsFromReference (refData : Option Dataset) : List String :=
  match refData with
  | none => []
  | some d =>
    d.rows.foldl
      (fun unique row =>
        row.foldl
          (fun unique p =>
            if jsTrim p.2 ≠ "" ∧ ¬ unique.contains (jsTrim p.2) then unique ++ [jsTrim p.2]
            else unique)
          unique)
      []

/-- The two application modes read by the filtering code. -/
inductive Mode where
  | analyse
  | comparaison
deriving DecidableEq

/-- The pieces of the global `state` read by `filterRowsByKeywords`:
`state.filters.keywords`, `state.selectedColumns`, `state.caseSensitive`. -/
structure FilterConfig where
  keywords : List String
  selectedColumns : List String
  caseSensitive : Bool

/-- One `{ keyword, header }` match pushed by `filterRowsByKeywords`. -/
structure MatchRecord where
  keyword : String
  header : String
deriving DecidableEq

/-- One `{ row, matches }` entry of the filtered output. -/
structure FilteredRow where
  row : Row
  matchList : List MatchRecord
deriving DecidableEq

/-- The per-keyword comparison closure of `filterRowsByKeywords`:
substring containment, lower-casing both sides when not case sensitive. -/
def compareVals (caseSensitive : Bool) (value keyword : String) : Bool :=
  if caseSensitive then jsIncludes value keyword
  else jsIncludes (jsToLower value) (jsToLower keyword)

/-- The matches pushed for one row by `filterRowsByKeywords`: for each
selected header in order, skip absent cells, lower-case the cell text
when not case sensitive, and for each prepared keyword in order skip
empty keywords and on a containment hit push the original keyword with
the header. -/
def rowMatches (caseSensitive : Bool) (keywords selectedHeaders : List String)
    (row : Row) : List MatchRecord :=
  let preparedKeywords := if caseSensitive then keywords else keywords.map jsToLower
  selectedHeaders.foldl
    (fun ms header =>
      match rowGet row header with
      | none => ms
      | some cellValue =>
        let comparable := if caseSensitive then cellValue else jsToLower cellValue
        ms ++ preparedKeywords.enum.filterMap
          (fun ik =>
            if ik.2 = "" then none
            else if compareVals caseSensitive comparable ik.2 then
              some ⟨keywords.getD ik.1 "", header⟩
            else none))
    []

/-- The same scan as `rowMatches`, recording the keyword position
instead of the keyword text; it reads only the prepared keyword list. -/
def matchIdxs (caseSensitive : Bool) (preparedKeywords selectedHeaders : List String)
    (row : Row) : List (Nat × String) :=
  selectedHeaders.foldl
    (fun ms header =>
      match rowGet row header with
      | none => ms
      | some cellValue =>
        let comparable := if caseSensitive then cellValue else jsToLower cellValue
        ms ++ preparedKeywords.enum.filterMap
          (fun ik =>
            if ik.2 = "" then none
            else if compareVals caseSensitive comparable ik.2 then some (ik.1, header)
            else none))
    []

/-- `filterRowsByKeywords(rows, headers)` from src/app.js, with the
global state made explicit: empty keywords in analyse mode return every
row with no matches; otherwise each row is annotated with its matches
and kept per the mode policy (analyse keeps rows with empty keywords or
at least one match, comparaison keeps only rows with a match). -/
def filterRowsByKeywords (mode : Mode) (cfg : FilterConfig) (rows : List Row)
    (headers : List String) : List FilteredRow :=
  if cfg.keywords = [] ∧ mode = Mode.analyse then rows.map (fun row => ⟨row, []⟩)
  else
    let selectedHeaders := headers.filter (fun h => cfg.selectedColumns.contains h)
    rows.foldl
      (fun filtered row =>
        let ms := rowMatches cfg.caseSensitive cfg.keywords selectedHeaders row
        match mode with
        | Mode.analyse =>
          if cfg.keywords = [] ∨ ms ≠ [] then filtered ++ [⟨row, ms⟩] else filtered
        | Mode.comparaison =>
          if ms ≠ [] then filtered ++ [⟨row, ms⟩] else filtered)
      []

/-- `handleKeywordInputChange(rawValue)` from src/app.js, with the
global state made explicit: returns the resolved visible text and the
new effective keyword list. When the parsed list is empty in comparaison
mode and reference keywords exist, both revert to the reference list. -/
def handleKeywordInputChange (rawValue : String) (mode : Mode)
    (referenceKeywords : List String) : String × List String :=
  let parsed := parseKeywords rawValue
  if parsed = [] ∧ mode = Mode.comparaison ∧ referenceKeywords ≠ [] then
    (String.intercalate ", " referenceKeywords, referenceKeywords)
  else (rawValue, parsed)

/-! ### Helper lemmas about the embedded string primitives -/

theorem char_toNat_ofNat {n : Nat} (h : n.isValidChar) : (Char.ofNat n).toNat = n := by
  unfold Char.ofNat
  rw [dif_pos h]
  unfold Char.ofNatAux
  simp [Char.toNat, UInt32.toNat, BitVec.toNat_ofNatLt]

theorem charToLower_toLower (c : Char) : c.toLower.toLower = c.toLower := by
  unfold Char.toLower
  by_cases h : c.toNat ≥ 65 ∧ c.toNat ≤ 90
  · rw [if_pos h]
    have hv : (c.toNat + 32).isValidChar := Or.inl (by omega)
    rw [if_neg]
    rw [char_toNat_ofNat hv]
    omega
  · rw [if_neg h, if_neg h]

theorem jsToLower_idem (s : String) : jsToLower (jsToLower s) = jsToLower s := by
  unfold jsToLower
  have : (String.mk (s.toList.map Char.toLower)).toList = s.toList.map Char.toLower := rfl
  rw [this, List.map_map]
  congr 1
  apply List.map_congr_left
  intro c _
  exact charToLower_toLower c

theorem jsToLower_eq_empty_iff (s : String) : jsToLower s = "" ↔ s = "" := by
  unfold jsToLower
  constructor
  · intro h
    have h2 : s.toList.map Char.toLower = ([] : List Char) := congrArg String.toList h
    have h3 : s.toList = [] := List.map_eq_nil_iff.mp h2
    cases s with
    | mk data =>
      have h4 : data = [] := by simpa [String.toList] using h3
      subst h4
      rfl
  · intro h
    subst h
    rfl

theorem dropWhile_idem (p : α → Bool) (l : List α) :
    (l.dropWhile p).dropWhile p = l.dropWhile p := by
  induction l with
  | nil => rfl
  | cons a t ih =>
    by_cases h : p a
    · simp [List.dropWhile_cons, h, ih]
    · simp [List.dropWhile_cons, h]

theorem dropWhile_head_false (p : α → Bool) (l : List α) (a : α) (t : List α)
    (h : l.dropWhile p = a :: t) : p a = false := by
  induction l with
  | nil => simp at h
  | cons b r ih =>
    by_cases hb : p b
    · rw [List.dropWhile_cons, if_pos hb] at h
      exact ih h
    · rw [List.dropWhile_cons, if_neg hb] at h
      cases h
      simpa using hb

theorem trimChars_idem (l : List Char) : trimChars (trimChars l) = trimChars l := by
  unfold trimChars
  set p := jsIsWhitespace
  set y := l.dropWhile p with hy
  set z := (y.reverse.dropWhile p).reverse with hz
  have hzy : z <+: y := by
    rw [← List.reverse_suffix, hz, List.reverse_reverse]
    exact List.dropWhile_suffix p
  have hdz : z.dropWhile p = z := by
    cases hc : z with
    | nil => simp
    | cons a t =>
      obtain ⟨u, hu⟩ := hzy
      rw [hc] at hu
      have ha : p a = false := by
        cases hy2 : y with
        | nil => rw [hy2] at hu; simp at hu
        | cons b r =>
          have hb : p b = false := dropWhile_head_false p l b r (hy ▸ hy2)
          have : a = b := by
            have := hu.trans hy2
            simp at this
            exact this.1
          rwa [this]
      rw [List.dropWhile_cons, if_neg (by simp [ha])]
  rw [hdz]
  have h2 : z.reverse = y.reverse.dropWhile p := by rw [hz, List.reverse_reverse]
  rw [h2, dropWhile_idem, ← h2, List.reverse_reverse]

theorem jsTrim_idem (s : String) : jsTrim (jsTrim s) = jsTrim s := by
  unfold jsTrim
  have : (String.mk (trimChars s.toList)).toList = trimChars s.toList := rfl
  rw [this, trimChars_idem]

theorem splitCSVLineAux_trimmed (separator : Char) :
    ∀ (cs : List Char) (inQuotes : Bool) (current : List Char) (result : List (List Char)),
      (∀ f ∈ result, trimChars f = f) →
      ∀ f ∈ splitCSVLineAux separator cs inQuotes current result, trimChars f = f := by
  intro cs inQuotes current result
  induction cs, inQuotes, current, result using splitCSVLineAux.induct separator with
  | case1 x current result =>
    intro hres f hf
    simp only [splitCSVLineAux] at hf
    rcases List.mem_append.mp hf with h | h
    · exact hres f h
    · simp at h
      rw [h]
      exact trimChars_idem current
  | case2 rest2 current result ih =>
    intro hres
    simp only [splitCSVLineAux]
    exact ih hres
  | case3 rest current result hne ih =>
    intro hres
    simp only [splitCSVLineAux]
    exact ih hres
  | case4 rest current result ih =>
    intro hres
    simp only [splitCSVLineAux]
    exact ih hres
  | case5 c rest inQuotes current result h1 h2 h3 hcond ih =>
    intro hres
    simp only [splitCSVLineAux]
    rw [if_pos hcond]
    apply ih
    intro f hf
    rcases List.mem_append.mp hf with h | h
    · exact hres f h
    · simp at h
      rw [h]
      exact trimChars_idem current
  | case6 c rest inQuotes current result h1 h2 h3 hcond ih =>
    intro hres
    simp only [splitCSVLineAux]
    rw [if_neg hcond]
    exact ih hres

theorem splitCSVLine_trimmed (line : String) (separator : Char) :
    ∀ f ∈ splitCSVLine line separator, jsTrim f = f := by
  intro f hf
  unfold splitCSVLine at hf
  rcases List.mem_map.mp hf with ⟨g, hg, hfg⟩
  have hp : trimChars g = g :=
    splitCSVLineAux_trimmed separator line.toList false [] [] (by simp) g hg
  rw [← hfg]
  unfold jsTrim
  have : (String.mk g).toList = g := rfl
  rw [this, hp]

theorem getD_mapIdx (f : Nat → α → β) (l : List α) :
    ∀ (i : Nat), i < l.length → ∀ (d : α) (d2 : β),
      (l.mapIdx f).getD i d2 = f i (l.getD i d) := by
  induction l generalizing f with
  | nil => intro i hi; simp at hi
  | cons a t ih =>
    intro i hi d d2
    rw [List.mapIdx_cons]
    cases i with
    | zero => rfl
    | succ j =>
      rw [List.getD_cons_succ, List.getD_cons_succ]
      exact ih (fun k b => f (k + 1) b) j (by simpa using hi) d d2

theorem map_mapIdx (f : Nat → α → β) (g : β → γ) (l : List α) :
    (l.mapIdx f).map g = l.mapIdx (fun i a => g (f i a)) := by
  induction l generalizing f with
  | nil => rfl
  | cons a t ih =>
    rw [List.mapIdx_cons, List.mapIdx_cons, List.map_cons, ih (fun k b => f (k + 1) b)]

theorem mapIdx_const_id (l : List α) : l.mapIdx (fun _ a => a) = l := by
  induction l with
  | nil => rfl
  | cons a t ih => rw [List.mapIdx_cons]; exact congrArg (a :: ·) ih

theorem foldl_push_eq_filterMap (p : α → Prop) [DecidablePred p] (g : α → β) :
    ∀ (l : List α) (acc : List β),
      l.foldl (fun acc2 a => if p a then acc2 ++ [g a] else acc2) acc
        = acc ++ l.filterMap (fun a => if p a then some (g a) else none) := by
  intro l
  induction l with
  | nil => intro acc; simp
  | cons a t ih =>
    intro acc
    by_cases h : p a
    · simp [List.foldl_cons, List.filterMap_cons, h, ih]
    · simp [List.foldl_cons, List.filterMap_cons, h, ih]

theorem rowMatches_eq_matchIdxs (cs : Bool) (kws selH : List String) (row : Row) :
    rowMatches cs kws selH row
      = (matchIdxs cs (if cs then kws else kws.map jsToLower) selH row).map
          (fun p => ⟨kws.getD p.1 "", p.2⟩) := by
  simp only [rowMatches, matchIdxs]
  have key : ∀ (sh : List String) (accI : List (Nat × String)),
      sh.foldl
        (fun ms header =>
          match rowGet row header with
          | none => ms
          | some cellValue =>
            ms ++ (if cs then kws else kws.map jsToLower).enum.filterMap
              (fun ik =>
                if ik.2 = "" then none
                else if compareVals cs (if cs then cellValue else jsToLower cellValue) ik.2 then
                  some (⟨kws.getD ik.1 "", header⟩ : MatchRecord)
                else none))
        (accI.map (fun p => (⟨kws.getD p.1 "", p.2⟩ : MatchRecord)))
      = (sh.foldl
          (fun ms header =>
            match rowGet row header with
            | none => ms
            | some cellValue =>
              ms ++ (if cs then kws else kws.map jsToLower).enum.filterMap
                (fun ik =>
                  if ik.2 = "" then none
                  else if compareVals cs (if cs then cellValue else jsToLower cellValue) ik.2 then
                    some (ik.1, header)
                  else none))
          accI).map (fun p => (⟨kws.getD p.1 "", p.2⟩ : MatchRecord)) := by
    intro sh
    induction sh with
    | nil => intro accI; rfl
    | cons h t ih =>
      intro accI
      simp only [List.foldl_cons]
      cases hg : rowGet row h with
      | none => exact ih accI
      | some v =>
        dsimp only
        have hinner :
            (if cs then kws else kws.map jsToLower).enum.filterMap
              (fun ik =>
                if ik.2 = "" then none
                else if compareVals cs (if cs then v else jsToLower v) ik.2 then
                  some (⟨kws.getD ik.1 "", h⟩ : MatchRecord)
                else none)
            = ((if cs then kws else kws.map jsToLower).enum.filterMap
                (fun ik =>
                  if ik.2 = "" then none
                  else if compareVals cs (if cs then v else jsToLower v) ik.2 then some (ik.1, h)
                  else none)).map (fun p => (⟨kws.getD p.1 "", p.2⟩ : MatchRecord)) := by
          rw [List.map_filterMap]
          apply List.filterMap_congr
          intro ik _
          by_cases h1 : ik.2 = ""
          · simp [h1]
          · by_cases h2 : compareVals cs (if cs then v else jsToLower v) ik.2 <;> simp [h1, h2]
        rw [hinner, ← List.map_append]
        exact ih (accI ++ _)
  simpa using key selH []

theorem matchIdxs_mem (cs : Bool) (prep selH : List String) (row : Row) :
    ∀ p ∈ matchIdxs cs prep selH row, p.1 < prep.length ∧ p.2 ∈ selH := by
  simp only [matchIdxs]
  have key : ∀ (sh : List String), (∀ x ∈ sh, x ∈ selH) →
      ∀ (acc : List (Nat × String)), (∀ p ∈ acc, p.1 < prep.length ∧ p.2 ∈ selH) →
      ∀ p ∈ sh.foldl
        (fun ms header =>
          match rowGet row header with
          | none => ms
          | some cellValue =>
            ms ++ prep.enum.filterMap
              (fun ik =>
                if ik.2 = "" then none
                else if compareVals cs (if cs then cellValue else jsToLower cellValue) ik.2 then
                  some (ik.1, header)
                else none))
        acc, p.1 < prep.length ∧ p.2 ∈ selH := by
    intro sh
    induction sh with
    | nil => intro _ acc hacc p hp; exact hacc p hp
    | cons h t ih =>
      intro hsh acc hacc
      simp only [List.foldl_cons]
      cases hg : rowGet row h with
      | none => exact ih (fun x hx => hsh x (List.mem_cons_of_mem h hx)) acc hacc
      | some v =>
        dsimp only
        apply ih (fun x hx => hsh x (List.mem_cons_of_mem h hx))
        intro p hp
        rcases List.mem_append.mp hp with hp1 | hp2
        · exact hacc p hp1
        · rcases List.mem_filterMap.mp hp2 with ⟨ik, hik, hsome⟩
          have hi : ik.1 < prep.length := by
            have := List.mem_enum_iff_getElem?.mp hik
            exact (List.getElem?_eq_some.mp this).1
          have hps : p = (ik.1, h) := by
            by_cases h1 : ik.2 = ""
            · simp [h1] at hsome
            · by_cases h2 : compareVals cs (if cs then v else jsToLower v) ik.2
              · rw [if_neg h1, if_pos h2] at hsome
                exact (Option.some_inj.mp hsome).symm
              · simp [h1, h2] at hsome
          rw [hps]
          exact ⟨hi, hsh h (List.mem_cons_self h t)⟩
  exact key selH (fun x hx => hx) [] (by simp)

theorem matchIdxs_nil_prep (cs : Bool) (selH : List String) (row : Row) :
    matchIdxs cs [] selH row = [] := by
  simp only [matchIdxs]
  have key : ∀ (sh : List String),
      sh.foldl
        (fun ms header =>
          match rowGet row header with
          | none => ms
          | some cellValue =>
            ms ++ ([] : List String).enum.filterMap
              (fun ik =>
                if ik.2 = "" then none
                else if compareVals cs (if cs then cellValue else jsToLower cellValue) ik.2 then
                  some (ik.1, header)
                else none))
        ([] : List (Nat × String)) = [] := by
    intro sh
    have hstep : ∀ (acc : List (Nat × String)),
        sh.foldl
          (fun ms header =>
            match rowGet row header with
            | none => ms
            | some cellValue =>
              ms ++ ([] : List String).enum.filterMap
                (fun ik =>
                  if ik.2 = "" then none
                  else if compareVals cs (if cs then cellValue else jsToLower cellValue) ik.2 then
                    some (ik.1, header)
                  else none))
          acc = acc := by
      induction sh with
      | nil => intro acc; rfl
      | cons h t ih =>
        intro acc
        simp only [List.foldl_cons]
        cases hg : rowGet row h with
        | none => exact ih acc
        | some v =>
          dsimp only
          rw [show (List.enum ([] : List String)) = [] from rfl, List.filterMap_nil,
            List.append_nil]
          exact ih acc
    exact hstep []
  exact key selH

theorem rowMatches_nil_keywords (cs : Bool) (selH : List String) (row : Row) :
    rowMatches cs [] selH row = [] := by
  rw [rowMatches_eq_matchIdxs]
  have h : (if cs then ([] : List String) else List.map jsToLower []) = [] := by
    cases cs <;> rfl
  rw [h, matchIdxs_nil_prep]
  rfl

theorem filterRows_eq_filterMap (mode : Mode) (cfg : FilterConfig) (rows : List Row)
    (headers : List String) (h : ¬(cfg.keywords = [] ∧ mode = Mode.analyse)) :
    filterRowsByKeywords mode cfg rows headers
      = rows.filterMap (fun row =>
          if rowMatches cfg.caseSensitive cfg.keywords
              (headers.filter (fun hh => cfg.selectedColumns.contains hh)) row = [] then none
          else some ⟨row, rowMatches cfg.caseSensitive cfg.keywords
              (headers.filter (fun hh => cfg.selectedColumns.contains hh)) row⟩) := by
  simp only [filterRowsByKeywords, if_neg h]
  cases mode with
  | comparaison =>
    refine (foldl_push_eq_filterMap
      (fun row : Row => ¬ rowMatches cfg.caseSensitive cfg.keywords
        (headers.filter (fun hh => cfg.selectedColumns.contains hh)) row = [])
      (fun row : Row => (⟨row, rowMatches cfg.caseSensitive cfg.keywords
        (headers.filter (fun hh => cfg.selectedColumns.contains hh)) row⟩ : FilteredRow))
      rows []).trans ?_
    rw [List.nil_append]
    apply List.filterMap_congr
    intro row _
    split_ifs <;> rfl
  | analyse =>
    have hk : cfg.keywords ≠ [] := fun hkk => h ⟨hkk, rfl⟩
    refine (foldl_push_eq_filterMap
      (fun row : Row => cfg.keywords = [] ∨ ¬ rowMatches cfg.caseSensitive cfg.keywords
        (headers.filter (fun hh => cfg.selectedColumns.contains hh)) row = [])
      (fun row : Row => (⟨row, rowMatches cfg.caseSensitive cfg.keywords
        (headers.filter (fun hh => cfg.selectedColumns.contains hh)) row⟩ : FilteredRow))
      rows []).trans ?_
    rw [List.nil_append]
    apply List.filterMap_congr
    intro row _
    split_ifs <;> first | rfl | tauto

theorem foldBest_argmax (lines : List String) :
    ∀ (seps : List Char) (b : Char) (prevs mids : List Char),
      (∀ x ∈ prevs, scoreFor lines x < scoreFor lines b) →
      (∀ x ∈ mids, scoreFor lines x ≤ scoreFor lines b) →
      ∃ pre post,
        prevs ++ b :: (mids ++ seps)
          = pre
            ++ (seps.foldl
                (fun best sep =>
                  match best.2 with
                  | none => (sep, some (scoreFor lines sep))
                  | some bb =>
                    if scoreFor lines sep > bb then (sep, some (scoreFor lines sep)) else best)
                (b, some (scoreFor lines b))).1 :: post
        ∧ (∀ c ∈ pre, scoreFor lines c
            < scoreFor lines (seps.foldl
                (fun best sep =>
                  match best.2 with
                  | none => (sep, some (scoreFor lines sep))
                  | some bb =>
                    if scoreFor lines sep > bb then (sep, some (scoreFor lines sep)) else best)
                (b, some (scoreFor lines b))).1)
        ∧ (∀ c ∈ post, scoreFor lines c
            ≤ scoreFor lines (seps.foldl
                (fun best sep =>
                  match best.2 with
                  | none => (sep, some (scoreFor lines sep))
                  | some bb =>
                    if scoreFor lines sep > bb then (sep, some (scoreFor lines sep)) else best)
                (b, some (scoreFor lines b))).1) := by
  intro seps
  induction seps with
  | nil =>
    intro b prevs mids hprevs hmids
    refine ⟨prevs, mids, by simp, ?_, ?_⟩
    · simpa using hprevs
    · simpa using hmids
  | cons c rest ih =>
    intro b prevs mids hprevs hmids
    simp only [List.foldl_cons]
    by_cases hc : scoreFor lines c > scoreFor lines b
    · rw [if_pos hc]
      obtain ⟨pre, post, heq, hpre, hpost⟩ :=
        ih c (prevs ++ b :: mids) []
          (by
            intro x hx
            rcases List.mem_append.mp hx with hx1 | hx2
            · exact lt_trans (hprevs x hx1) hc
            · rcases List.mem_cons.mp hx2 with hx3 | hx4
              · rw [hx3]; exact hc
              · exact lt_of_le_of_lt (hmids x hx4) hc)
          (by intro x hx; simp at hx)
      refine ⟨pre, post, ?_, hpre, hpost⟩
      rw [← heq]
      simp
    · rw [if_neg hc]
      obtain ⟨pre, post, heq, hpre, hpost⟩ :=
        ih b prevs (mids ++ [c]) hprevs
          (by
            intro x hx
            rcases List.mem_append.mp hx with hx1 | hx2
            · exact hmids x hx1
            · rcases List.mem_cons.mp hx2 with hx3 | hx4
              · rw [hx3]; omega
              · simp at hx4)
      refine ⟨pre, post, ?_, hpre, hpost⟩
      rw [← heq]
      simp

theorem detectOnLines_argmax (lines : List String) :
    ∃ pre post, csvSeparators = pre ++ detectOnLines lines :: post
      ∧ (∀ c ∈ pre, scoreFor lines c < scoreFor lines (detectOnLines lines))
      ∧ (∀ c ∈ post, scoreFor lines c ≤ scoreFor lines (detectOnLines lines)) := by
  have h0 : detectOnLines lines
      = ([',', '\t', '|'].foldl
          (fun best sep =>
            match best.2 with
            | none => (sep, some (scoreFor lines sep))
            | some bb =>
              if scoreFor lines sep > bb then (sep, some (scoreFor lines sep)) else best)
          (';', some (scoreFor lines ';'))).1 := rfl
  have h1 := foldBest_argmax lines [',', '\t', '|'] ';' [] []
    (by intro x hx; simp at hx) (by intro x hx; simp at hx)
  rw [h0]
  simpa [csvSeparators] using h1

/-- Invariant carried by the keyword-collection fold of
`extractKeywordsFromReference`: no duplicates, and every collected
keyword is trimmed and nonempty. -/
def ExtractInv (acc : List String) : Prop :=
  acc.Nodup ∧ ∀ k ∈ acc, jsTrim k = k ∧ k ≠ ""

theorem extractFold_inner_inv (l : List (String × String)) :
    ∀ (acc : List String), ExtractInv acc →
      ExtractInv (l.foldl
        (fun unique p =>
          if jsTrim p.2 ≠ "" ∧ ¬ unique.contains (jsTrim p.2) then unique ++ [jsTrim p.2]
          else unique)
        acc) := by
  induction l with
  | nil => intro acc h; exact h
  | cons p t ih =>
    intro acc h
    simp only [List.foldl_cons]
    by_cases hc : jsTrim p.2 ≠ "" ∧ ¬ acc.contains (jsTrim p.2)
    · rw [if_pos hc]
      apply ih
      constructor
      · have hmem : jsTrim p.2 ∉ acc := by
          intro hm
          exact hc.2 (List.elem_iff.mpr hm)
        simp [List.nodup_append, h.1, hmem]
      · intro k hk
        rcases List.mem_append.mp hk with hk1 | hk2
        · exact h.2 k hk1
        · simp at hk2
          rw [hk2]
          exact ⟨jsTrim_idem p.2, hc.1⟩
    · rw [if_neg hc]
      exact ih acc h

theorem extractFold_rows_inv (rows : List Row) :
    ∀ (acc : List String), ExtractInv acc →
      ExtractInv (rows.foldl
        (fun unique row =>
          row.foldl
            (fun unique p =>
              if jsTrim p.2 ≠ "" ∧ ¬ unique.contains (jsTrim p.2) then unique ++ [jsTrim p.2]
              else unique)
            unique)
        acc) := by
  induction rows with
  | nil => intro acc h; exact h
  | cons r t ih =>
    intro acc h
    simp only [List.foldl_cons]
    exact ih _ (extractFold_inner_inv r acc h)

theorem extractKeywords_inv (d : Dataset) :
    ExtractInv (extractKeywordsFromReference (some d)) := by
  simp only [extractKeywordsFromReference]
  exact extractFold_rows_inv d.rows [] ⟨List.nodup_nil, by simp⟩

theorem buildRow_keys (headers parts : List String) :
    (buildRow headers parts).map Prod.fst = headers := by
  unfold buildRow
  rw [map_mapIdx]
  exact mapIdx_const_id headers

/-! ### Claim theorems -/

/-- Claim C1: row inclusion policy of the filter engine. In analyse
(show-all-on-empty) mode with an empty keyword list every input row is
returned in original order with an empty match list; with nonempty
keywords in analyse mode, and always in comparaison (match-required)
mode, the output is the filterMap keeping exactly the rows with at
least one match (so input order is preserved with no sorting or
deduplication); an empty keyword list in comparaison mode yields zero
rows. -/
theorem claim_C1_row_inclusion_policy :
    (∀ (sel : List String) (cs : Bool) (rows : List Row) (headers : List String),
      filterRowsByKeywords Mode.analyse ⟨[], sel, cs⟩ rows headers
        = rows.map (fun row => ⟨row, []⟩))
    ∧ (∀ (sel : List String) (cs : Bool) (rows : List Row) (headers : List String)
        (kws : List String), kws ≠ [] →
      filterRowsByKeywords Mode.analyse ⟨kws, sel, cs⟩ rows headers
        = rows.filterMap (fun row =>
            if rowMatches cs kws (headers.filter (fun hh => sel.contains hh)) row = [] then none
            else some ⟨row, rowMatches cs kws (headers.filter (fun hh => sel.contains hh)) row⟩))
    ∧ (∀ (sel : List String) (cs : Bool) (rows : List Row) (headers : List String)
        (kws : List String),
      filterRowsByKeywords Mode.comparaison ⟨kws, sel, cs⟩ rows headers
        = rows.filterMap (fun row =>
            if rowMatches cs kws (headers.filter (fun hh => sel.contains hh)) row = [] then none
            else some ⟨row, rowMatches cs kws (headers.filter (fun hh => sel.contains hh)) row⟩))
    ∧ (∀ (sel : List String) (cs : Bool) (rows : List Row) (headers : List String),
      filterRowsByKeywords Mode.comparaison ⟨[], sel, cs⟩ rows headers = []) := by
  refine ⟨?_, ?_, ?_, ?_⟩
  · intro sel cs rows headers
    simp [filterRowsByKeywords]
  · intro sel cs rows headers kws hk
    exact filterRows_eq_filterMap Mode.analyse ⟨kws, sel, cs⟩ rows headers
      (fun hcon => hk hcon.1)
  · intro sel cs rows headers kws
    exact filterRows_eq_filterMap Mode.comparaison ⟨kws, sel, cs⟩ rows headers
      (fun hcon => Mode.noConfusion hcon.2)
  · intro sel cs rows headers
    rw [filterRows_eq_filterMap Mode.comparaison ⟨[], sel, cs⟩ rows headers
      (fun hcon => Mode.noConfusion hcon.2)]
    apply List.filterMap_eq_nil_iff.mpr
    intro row _
    rw [rowMatches_nil_keywords]
    simp

theorem claim_C1_row_inclusion_policy_witness :
    filterRowsByKeywords Mode.analyse ⟨["test"], ["Col1"], false⟩
        [[("Col1", "Une valeur")], [("Col1", "Test en majuscule")]] ["Col1"]
      = [⟨[("Col1", "Test en majuscule")], [⟨"test", "Col1"⟩]⟩] := by
  rw [claim_C1_row_inclusion_policy.2.1 ["Col1"] false
    [[("Col1", "Une valeur")], [("Col1", "Test en majuscule")]] ["Col1"] ["test"]
    (by decide)]
  decide

/-- Claim C2: matching semantics per keyword and cell. Every emitted
match record carries a keyword from the configured list in its original
casing; in case-insensitive mode the code lower-cases twice (once when
preparing, once inside the comparison closure), which equals a single
lower-casing of both sides; a single nonempty keyword against a single
cell matches exactly by (case-adjusted) substring containment; and the
keyword "test" against cell "Test en majuscule" yields zero matches
when case sensitive, one match when not. -/
theorem claim_C2_keyword_matching :
    (∀ (cs : Bool) (kws selH : List String) (row : Row),
      ∀ r ∈ rowMatches cs kws selH row, r.keyword ∈ kws)
    ∧ (∀ v k : String, compareVals false (jsToLower v) (jsToLower k)
        = jsIncludes (jsToLower v) (jsToLower k))
    ∧ (∀ v k h : String, k ≠ "" →
        rowMatches true [k] [h] [(h, v)]
          = if jsIncludes v k then [⟨k, h⟩] else [])
    ∧ (∀ v k h : String, k ≠ "" →
        rowMatches false [k] [h] [(h, v)]
          = if jsIncludes (jsToLower v) (jsToLower k) then [⟨k, h⟩] else [])
    ∧ rowMatches true ["test"] ["Col1"] [("Col1", "Test en majuscule")] = []
    ∧ rowMatches false ["test"] ["Col1"] [("Col1", "Test en majuscule")]
        = [⟨"test", "Col1"⟩] := by
  refine ⟨?_, ?_, ?_, ?_, by decide, by decide⟩
  · intro cs kws selH row r hr
    rw [rowMatches_eq_matchIdxs] at hr
    rcases List.mem_map.mp hr with ⟨p, hp, hpr⟩
    have hlen : (if cs then kws else kws.map jsToLower).length = kws.length := by
      cases cs <;> simp
    have hlt : p.1 < kws.length := by
      have := (matchIdxs_mem cs (if cs then kws else kws.map jsToLower) selH row p hp).1
      omega
    rw [← hpr]
    show kws.getD p.1 "" ∈ kws
    rw [List.getD_eq_getElem kws "" hlt]
    exact List.getElem_mem hlt
  · intro v k
    show jsIncludes (jsToLower (jsToLower v)) (jsToLower (jsToLower k))
        = jsIncludes (jsToLower v) (jsToLower k)
    rw [jsToLower_idem, jsToLower_idem]
  · intro v k h hk
    have hrg : rowGet [(h, v)] h = some v := by simp [rowGet]
    simp only [rowMatches, List.foldl_cons, List.foldl_nil, hrg]
    by_cases hinc : jsIncludes v k
    · simp [compareVals, List.enum, List.enumFrom, hk, hinc]
    · simp [compareVals, List.enum, List.enumFrom, hk, hinc]
  · intro v k h hk
    have hrg : rowGet [(h, v)] h = some v := by simp [rowGet]
    have hk2 : jsToLower k ≠ "" := fun hc => hk ((jsToLower_eq_empty_iff k).mp hc)
    simp only [rowMatches, List.foldl_cons, List.foldl_nil, hrg]
    by_cases hinc : jsIncludes (jsToLower v) (jsToLower k)
    · simp [compareVals, List.enum, List.enumFrom, hk2, jsToLower_idem, hinc]
    · simp [compareVals, List.enum, List.enumFrom, hk2, jsToLower_idem, hinc]

theorem claim_C2_keyword_matching_witness :
    rowMatches false ["Test"] ["Col1"] [("Col1", "un test ici")] = [⟨"Test", "Col1"⟩] := by
  rw [claim_C2_keyword_matching.2.2.2.1 "un test ici" "Test" "Col1" (by decide)]
  decide

/-- Claim C3 counterexample: on the empty string (which has no non-blank
lines) the detector returns the semicolon, not the comma the claim
names: the fold starts from score minus infinity, so the first
candidate always replaces the initial comma. -/
theorem claim_C3_counterexample :
    detectCSVSeparator "" ≠ ',' ∧ detectCSVSeparator "" = ';' := by
  constructor
  · decide
  · decide

/-- Claim C3 (amended): for every input text all of whose lines are the
empty string (in particular the empty text), every candidate separator
scores zero, so the detector returns the first-evaluated candidate
semicolon; the comma initialization of the fold is unreachable because
the initial score is minus infinity. (The code keeps whitespace-only
lines, so a text with such lines can even select another candidate,
e.g. a lone tab character selects the tab separator.) -/
theorem claim_C3_empty_default (text : String)
    (h : ∀ l ∈ splitLinesJS text, l = "") :
    detectCSVSeparator text = ';' := by
  have hfilter : (splitLinesJS text).filter (fun l => l ≠ "") = [] := by
    apply List.filter_eq_nil_iff.mpr
    intro a ha
    simp [h a ha]
  have hl : detectLines text = [] := by
    simp only [detectLines, hfilter]
    rfl
  unfold detectCSVSeparator
  rw [hl]
  decide

theorem claim_C3_empty_default_witness : detectCSVSeparator "\n\n" = ';' :=
  claim_C3_empty_default "\n\n" (by decide)

/-- Modelled from the spec: the lines the specification says separator
detection scores, with blank meaning empty after trim (the code instead
keeps whitespace-only lines, compare `detectLines`). -/
def detectLinesSpec (text : String) : List String :=
  ((splitLinesJS text).filter (fun l => jsTrim l ≠ "")).take 5

/-- Claim C4 counterexample: on a text whose first five lines are
whitespace-only and whose sixth line is comma-separated, the claimed
algorithm (blank means empty after trim) scores the comma strictly
highest and must return the comma, but the code keeps the five
whitespace-only lines, every candidate ties, and the semicolon is
returned. -/
theorem claim_C4_counterexample :
    detectCSVSeparator " \n \n \n \n \na,b,c" = ';'
    ∧ detectOnLines (detectLinesSpec " \n \n \n \n \na,b,c") = ','
    ∧ scoreFor (detectLinesSpec " \n \n \n \n \na,b,c") ';'
        < scoreFor (detectLinesSpec " \n \n \n \n \na,b,c") ',' := by
  refine ⟨by decide, by decide, by decide⟩

/-- Claim C4 (amended): the detector takes the first five nonempty
lines (blank meaning the empty string: whitespace-only lines are kept
and scored), sums the naive split-by-separator segment counts per
candidate in order semicolon, comma, tab, pipe, and returns the
earliest-evaluated candidate whose sum is maximal (a later candidate
wins only by a strictly greater sum); for text "a;b,c\nd;e,f" it
returns the semicolon. -/
theorem claim_C4_separator_detection :
    (∀ text : String,
      ∃ pre post, csvSeparators = pre ++ detectCSVSeparator text :: post
        ∧ (∀ c ∈ pre,
            scoreFor (detectLines text) c
              < scoreFor (detectLines text) (detectCSVSeparator text))
        ∧ (∀ c ∈ post,
            scoreFor (detectLines text) c
              ≤ scoreFor (detectLines text) (detectCSVSeparator text)))
    ∧ detectCSVSeparator "a;b,c\nd;e,f" = ';' :=
  ⟨fun text => detectOnLines_argmax (detectLines text), by decide⟩

/-- Claim C5: quote-aware line splitting. Every emitted field is
trimmed; the line with a quoted separator and the line with quoted
commas split as the spec says; a doubled quote inside quotes emits one
literal quote; and an unterminated quote is tolerated, flushing the
accumulated field. -/
theorem claim_C5_quote_aware_splitting :
    (∀ (line : String) (sep : Char), ∀ f ∈ splitCSVLine line sep, jsTrim f = f)
    ∧ splitCSVLine "\"Alpha;Beta\";42" ';' = ["Alpha;Beta", "42"]
    ∧ splitCSVLine "Gamma;\"Texte, avec, virgules\"" ';' = ["Gamma", "Texte, avec, virgules"]
    ∧ splitCSVLine "\"a\"\"b\"" ';' = ["a\"b"]
    ∧ splitCSVLine "\"Alpha" ';' = ["Alpha"] := by
  refine ⟨?_, by decide, by decide, by decide, by decide⟩
  intro line sep f hf
  exact splitCSVLine_trimmed line sep f hf

theorem claim_C5_quote_aware_splitting_witness : jsTrim "42" = "42" :=
  claim_C5_quote_aware_splitting.1 "\"Alpha;Beta\";42" ';' "42" (by decide)

/-- Claim C6 counterexample: the fallback header string the code
produces is the French "Colonne 1", not "Column 1" as the claim
states. -/
theorem claim_C6_counterexample :
    resolveHeaders ["", "Nom"] = ["Colonne 1", "Nom"]
    ∧ resolveHeaders ["", "Nom"] ≠ ["Column 1", "Nom"] := by
  refine ⟨by decide, by decide⟩

/-- Claim C6 (amended): a blank or whitespace-only header token at
1-based position i resolves to the French string "Colonne i" (not
"Column i"): tokens coming out of the splitter are already trimmed, so
a whitespace-only source token reaches header resolution as the empty
string and takes the fallback; in particular the header row
["", "Nom"] resolves to ["Colonne 1", "Nom"], and parsing the text
";Nom" produces those headers. -/
theorem claim_C6_header_fallback :
    (∀ (line : String) (sep : Char) (i : Nat), i < (splitCSVLine line sep).length →
      jsTrim ((splitCSVLine line sep).getD i "") = "" →
      (resolveHeaders (splitCSVLine line sep)).getD i "" = "Colonne " ++ toString (i + 1))
    ∧ resolveHeaders ["", "Nom"] = ["Colonne 1", "Nom"]
    ∧ parseCSV ";Nom" = ⟨["Colonne 1", "Nom"], []⟩ := by
  refine ⟨?_, by decide, by decide⟩
  intro line sep i hi htrim
  have hmem : (splitCSVLine line sep).getD i "" ∈ splitCSVLine line sep := by
    rw [List.getD_eq_getElem _ _ hi]
    exact List.getElem_mem hi
  have htok : jsTrim ((splitCSVLine line sep).getD i "")
      = (splitCSVLine line sep).getD i "" :=
    splitCSVLine_trimmed line sep _ hmem
  have hempty : (splitCSVLine line sep).getD i "" = "" := htok.symm.trans htrim
  unfold resolveHeaders
  rw [getD_mapIdx _ _ i hi "" "", hempty]
  simp

theorem claim_C6_header_fallback_witness :
    (resolveHeaders (splitCSVLine ";Nom" ';')).getD 0 "" = "Colonne " ++ toString (0 + 1) :=
  claim_C6_header_fallback.1 ";Nom" ';' 0 (by decide) (by decide)

/-- Claim C7: every parsed row carries exactly the header keys in
header order; a row built from fewer fields than headers gets the empty
string for the missing trailing cells (never absent keys); and extra
trailing fields are dropped (the row length always equals the header
count, whatever the field count). -/
theorem claim_C7_row_shape :
    (∀ text : String, ∀ row ∈ (parseCSV text).rows,
      row.map Prod.fst = (parseCSV text).headers)
    ∧ (∀ headers parts : List String, (buildRow headers parts).length = headers.length)
    ∧ (∀ (headers parts : List String) (i : Nat), i < headers.length → parts.length ≤ i →
        (buildRow headers parts).getD i ("", "") = (headers.getD i "", "")) := by
  refine ⟨?_, ?_, ?_⟩
  · intro text
    simp only [parseCSV]
    split
    · intro row hrow
      simp at hrow
    · intro row hrow
      rcases List.mem_map.mp hrow with ⟨line, _, hline⟩
      rw [← hline]
      exact buildRow_keys _ _
  · intro headers parts
    unfold buildRow
    exact List.length_mapIdx
  · intro headers parts i hi hp
    unfold buildRow
    rw [getD_mapIdx _ _ i hi "" ("", ""), List.getD_eq_default parts "" hp]

theorem claim_C7_row_shape_witness :
    ([("A", "1"), ("B", "")] : Row).map Prod.fst = (parseCSV "A;B\n1").headers
    ∧ (buildRow ["A", "B"] ["1"]).getD 1 ("", "") = ("B", "") := by
  constructor
  · exact claim_C7_row_shape.1 "A;B\n1" [("A", "1"), ("B", "")] (by decide)
  · rw [claim_C7_row_shape.2.2 ["A", "B"] ["1"] 1 (by decide) (by decide)]
    decide

/-- Claim C8: keyword input reconciliation. When the raw text parses to
an empty keyword list, the mode is comparaison, and a nonempty
reference keyword list exists, the effective list becomes the reference
list and the returned resolved text is the reference list joined with
a comma and a space; in every other case the parsed list is used as-is
(including the empty list) and the raw text is returned unchanged; in
particular whitespace-only input with reference keywords Alpha, Beta
resolves to the text "Alpha, Beta" and that keyword list. -/
theorem claim_C8_keyword_reconciliation :
    (∀ (raw : String) (refK : List String), parseKeywords raw = [] → refK ≠ [] →
      handleKeywordInputChange raw Mode.comparaison refK
        = (String.intercalate ", " refK, refK))
    ∧ (∀ (raw : String) (mode : Mode) (refK : List String),
        parseKeywords raw ≠ [] ∨ mode ≠ Mode.comparaison ∨ refK = [] →
        handleKeywordInputChange raw mode refK = (raw, parseKeywords raw))
    ∧ handleKeywordInputChange "   " Mode.comparaison ["Alpha", "Beta"]
        = ("Alpha, Beta", ["Alpha", "Beta"]) := by
  refine ⟨?_, ?_, by decide⟩
  · intro raw refK h1 h2
    simp [handleKeywordInputChange, h1, h2]
  · intro raw mode refK h
    simp only [handleKeywordInputChange]
    rw [if_neg ?_]
    rcases h with h | h | h
    · exact fun hc => h hc.1
    · exact fun hc => h hc.2.1
    · exact fun hc => hc.2.2 h

theorem claim_C8_keyword_reconciliation_witness :
    handleKeywordInputChange ", ," Mode.comparaison ["X"] = ("X", ["X"]) := by
  rw [claim_C8_keyword_reconciliation.1 ", ," ["X"] (by decide) (by decide)]
  decide

/-- Claim C9: reference keyword extraction. No dataset gives the empty
list; the sample dataset extracts its distinct nonempty trimmed cell
values in first-seen row-then-column order; and in general the result
has no duplicates and every extracted keyword is trimmed and
nonempty. -/
theorem claim_C9_keyword_extraction :
    extractKeywordsFromReference none = []
    ∧ extractKeywordsFromReference
        (some ⟨["A", "B"], [[("A", "x"), ("B", "y")], [("A", "x"), ("B", "z")]]⟩)
        = ["x", "y", "z"]
    ∧ (∀ d : Dataset, (extractKeywordsFromReference (some d)).Nodup)
    ∧ (∀ (d : Dataset) (k : String), k ∈ extractKeywordsFromReference (some d) →
        jsTrim k = k ∧ k ≠ "") := by
  refine ⟨rfl, by decide, ?_, ?_⟩
  · intro d
    exact (extractKeywords_inv d).1
  · intro d k hk
    exact (extractKeywords_inv d).2 k hk

theorem claim_C9_keyword_extraction_witness :
    jsTrim "x" = "x" ∧ "x" ≠ "" :=
  claim_C9_keyword_extraction.2.2.2 ⟨["A"], [[("A", "x")]]⟩ "x" (by decide)

theorem map_eq_nil_iff_matchIdxs (kws selH : List String) (row : Row) :
    rowMatches false kws selH row = []
      ↔ matchIdxs false (kws.map jsToLower) selH row = [] := by
  rw [rowMatches_eq_matchIdxs]
  simp

/-- Claim C10: with caseSensitive false, the engine is insensitive to
the letter case of its keywords: for keyword lists equal after
lower-casing, both runs keep the same rows in the same order, the
per-row scans hit the same (keyword position, header) pairs, and the
headers recorded per kept row coincide — only the keyword text stored
in each match record echoes the casing the caller passed. -/
theorem claim_C10_case_insensitive_covariance :
    ∀ (mode : Mode) (sel : List String) (rows : List Row) (headers : List String)
      (kws1 kws2 : List String), kws1.map jsToLower = kws2.map jsToLower →
      ((filterRowsByKeywords mode ⟨kws1, sel, false⟩ rows headers).map FilteredRow.row
        = (filterRowsByKeywords mode ⟨kws2, sel, false⟩ rows headers).map FilteredRow.row)
      ∧ (∀ (selH : List String) (row : Row),
          matchIdxs false (kws1.map jsToLower) selH row
            = matchIdxs false (kws2.map jsToLower) selH row)
      ∧ ((filterRowsByKeywords mode ⟨kws1, sel, false⟩ rows headers).map
            (fun fr => fr.matchList.map MatchRecord.header)
          = (filterRowsByKeywords mode ⟨kws2, sel, false⟩ rows headers).map
            (fun fr => fr.matchList.map MatchRecord.header)) := by
  intro mode sel rows headers kws1 kws2 hlow
  have hpart2 : ∀ (selH : List String) (row : Row),
      matchIdxs false (kws1.map jsToLower) selH row
        = matchIdxs false (kws2.map jsToLower) selH row := by
    intro selH row
    rw [hlow]
  have hnil2 : ∀ (selH : List String) (row : Row),
      rowMatches false kws1 selH row = [] → rowMatches false kws2 selH row = [] := by
    intro selH row h1
    apply (map_eq_nil_iff_matchIdxs kws2 selH row).mpr
    rw [← hpart2 selH row]
    exact (map_eq_nil_iff_matchIdxs kws1 selH row).mp h1
  have hnil1 : ∀ (selH : List String) (row : Row),
      rowMatches false kws2 selH row = [] → rowMatches false kws1 selH row = [] := by
    intro selH row h2
    apply (map_eq_nil_iff_matchIdxs kws1 selH row).mpr
    rw [hpart2 selH row]
    exact (map_eq_nil_iff_matchIdxs kws2 selH row).mp h2
  have hhead : ∀ (selH : List String) (row : Row),
      (rowMatches false kws1 selH row).map MatchRecord.header
        = (rowMatches false kws2 selH row).map MatchRecord.header := by
    intro selH row
    have e1 := rowMatches_eq_matchIdxs false kws1 selH row
    have e2 := rowMatches_eq_matchIdxs false kws2 selH row
    simp only [Bool.false_eq_true, if_false] at e1 e2
    rw [e1, e2, List.map_map, List.map_map, hpart2 selH row]
    rfl
  by_cases hempty : kws1 = [] ∧ mode = Mode.analyse
  · obtain ⟨hk1, hm⟩ := hempty
    have hk2 : kws2 = [] := by
      rw [hk1] at hlow
      exact List.map_eq_nil_iff.mp hlow.symm
    subst hm
    rw [hk1, hk2]
    refine ⟨by rfl, fun selH row => by rfl, by rfl⟩
  · have hnot2 : ¬ (kws2 = [] ∧ mode = Mode.analyse) := by
      intro hc
      apply hempty
      refine ⟨?_, hc.2⟩
      rw [hc.1] at hlow
      exact List.map_eq_nil_iff.mp hlow
    have hbr1 := filterRows_eq_filterMap mode ⟨kws1, sel, false⟩ rows headers hempty
    have hbr2 := filterRows_eq_filterMap mode ⟨kws2, sel, false⟩ rows headers hnot2
    rw [hbr1, hbr2]
    dsimp only
    refine ⟨?_, hpart2, ?_⟩
    · rw [List.map_filterMap, List.map_filterMap]
      apply List.filterMap_congr
      intro row _
      by_cases h1 : rowMatches false kws1
          (headers.filter (fun hh => sel.contains hh)) row = []
      · rw [if_pos h1, if_pos (hnil2 _ row h1)]
      · rw [if_neg h1, if_neg (fun hc => h1 (hnil1 _ row hc))]
        rfl
    · rw [List.map_filterMap, List.map_filterMap]
      apply List.filterMap_congr
      intro row _
      by_cases h1 : rowMatches false kws1
          (headers.filter (fun hh => sel.contains hh)) row = []
      · rw [if_pos h1, if_pos (hnil2 _ row h1)]
      · rw [if_neg h1, if_neg (fun hc => h1 (hnil1 _ row hc))]
        dsimp only [Option.map]
        rw [hhead]

theorem claim_C10_case_insensitive_covariance_witness :
    (filterRowsByKeywords Mode.comparaison ⟨["TEST"], ["Col1"], false⟩
        [[("Col1", "un test ici")]] ["Col1"]).map FilteredRow.row
      = (filterRowsByKeywords Mode.comparaison ⟨["test"], ["Col1"], false⟩
          [[("Col1", "un test ici")]] ["Col1"]).map FilteredRow.row :=
  (claim_C10_case_insensitive_covariance Mode.comparaison ["Col1"]
    [[("Col1", "un test ici")]] ["Col1"] ["TEST"] ["test"] (by decide)).1
